import Mathlib

/-!
Verification of the goose schema-migration engine (lib/goose/migrate.go).

The Go source is shallowly embedded: versions (`int64`) become `Int`,
timestamps (`time.Time`, compared only with `After`, whose zero value is
the minimum) become `Nat`, database rows and discovered migrations share
the `Migration` record exactly as in the source, and fallible Go functions
return `Except`.  Side-effecting collaborators (the SQL dialect's history
query, the version-table DDL) are modelled as pure state passing over
`DBState`.
-/

namespace Goose

/-- Embedding of `Migration` (migrate.go): a discovered migration unit and
also the shape of a scanned ledger row (`rows.Scan(&row.Version,
&row.IsApplied, &row.TStamp)` fills the same struct). -/
structure Migration where
  version : Int
  isApplied : Bool
  tstamp : Nat
  source : String
deriving Repr, DecidableEq

/-- Go: `type Direction bool`. -/
abbrev Direction := Bool

/-- Go: `DirectionUp = Direction(true)`. -/
def DirectionUp : Direction := true

/-- Go: `DirectionDown = Direction(false)`. -/
def DirectionDown : Direction := false

/-! ### File-name parsing (`NumericComponent` and its helpers) -/

/-- Go `filepath.Base`: strip trailing separators, then keep everything
after the last separator; empty path gives ".", all-separator path "/". -/
def filepathBase (s : String) : String :=
  if s = "" then "."
  else
    let l := (s.toList.reverse.dropWhile (· = '/')).reverse
    let b := (l.reverse.takeWhile (· ≠ '/')).reverse
    if b = [] then "/" else String.mk b

/-- Helper for `filepathExt`: walk the reversed character list, collecting
until the last '.' of the final path element is found. -/
def extAux : List Char → List Char → String
  | [], _ => ""
  | c :: rest, acc =>
    if c = '/' then ""
    else if c = '.' then String.mk ('.' :: acc)
    else extAux rest (c :: acc)

/-- Go `filepath.Ext`: the suffix starting at the final dot of the final
path element, or "" if there is none. -/
def filepathExt (s : String) : String :=
  extAux s.toList.reverse []

/-- Go `strings.Index(s, "_")` restricted to a single-character needle:
index of the first occurrence, `none` for Go's `-1`. -/
def stringIndex (s : String) (c : Char) : Option Nat :=
  s.toList.findIdx? (· = c)

/-- Decimal digit value. -/
def digitVal (c : Char) : Option Nat :=
  if '0' ≤ c ∧ c ≤ '9' then some (c.toNat - '0'.toNat) else none

/-- Parse a non-empty all-digit string to a natural number. -/
def parseDigits (l : List Char) : Option Nat :=
  if l = [] then none
  else
    l.foldl
      (fun acc c =>
        match acc, digitVal c with
        | some n, some d => some (n * 10 + d)
        | _, _ => none)
      (some 0)

/-- Go `strconv.ParseInt(s, 10, 64)`: optional sign, decimal digits,
`int64` range check.  `none` stands for a non-nil error. -/
def parseInt64 (s : String) : Option Int :=
  match s.toList with
  | [] => none
  | c :: rest =>
    let signed : Bool × List Char :=
      if c = '-' then (true, rest)
      else if c = '+' then (false, rest)
      else (false, c :: rest)
    match parseDigits signed.2 with
    | none => none
    | some n =>
      if signed.1 then
        if n ≤ 2 ^ 63 then some (-(n : Int)) else none
      else
        if n ≤ 2 ^ 63 - 1 then some (n : Int) else none

/-- Embedding of `NumericComponent` (migrate.go:183-201): extension must be
`.go` or `.sql`, a `_` separator must exist, the text before it must parse
as an `int64`, and a parsed value `≤ 0` is its own error. -/
def NumericComponent (name : String) : Except String Int :=
  let base := filepathBase name
  let ext := filepathExt base
  if ext ≠ ".go" ∧ ext ≠ ".sql" then
    .error "not a recognized migration file type"
  else
    match stringIndex base '_' with
    | none => .error "no separator found"
    | some idx =>
      match parseInt64 (String.mk (base.toList.take idx)) with
      | none => .error "strconv.ParseInt: parsing error"
      | some n =>
        if n ≤ 0 then .error "migration IDs must be greater than zero"
        else .ok n

/-! ### Discovery (`CollectMigrations`) -/

/-- Go `filepath.Join(dir, name)` as used in the duplicate-version fatal
message; path cleaning is irrelevant to the properties proved here. -/
def pathJoin (dir name : String) : String := dir ++ "/" ++ name

/-- The payload of the `log.Fatalf("more than one file specifies the
migration for version %d (%s and %s)", v, g.Source, filepath.Join(dirpath,
name))` call in `CollectMigrations`: the duplicated version and the two
format arguments naming the offending files. -/
structure ConfigErr where
  version : Int
  firstSource : String
  secondSource : String
deriving Repr, DecidableEq

/-- The `filepath.Walk` body of `CollectMigrations` (migrate.go:155-177):
files whose `NumericComponent` errors are skipped; a file whose version is
already collected is a fatal error; otherwise the migration is appended
with `IsApplied = false` and zero timestamp.  The fatal `log.Fatalf` is
embedded as the `Except.error` branch. -/
def collectLoop (dirpath : String) : List String → List Migration → Except ConfigErr (List Migration)
  | [], m => .ok m
  | name :: rest, m =>
    match NumericComponent name with
    | .error _ => collectLoop dirpath rest m
    | .ok v =>
      match m.find? (fun g => g.version = v) with
      | some g => .error ⟨v, g.source, pathJoin dirpath name⟩
      | none => collectLoop dirpath rest (m ++ [⟨v, false, 0, name⟩])

/-- Embedding of `CollectMigrations` (migrate.go:155-177); `files` is the
sequence of paths that `filepath.Walk` hands to the callback. -/
def CollectMigrations (dirpath : String) (files : List String) : Except ConfigErr (List Migration) :=
  collectLoop dirpath files []

/-! ### Planner (the pure slice of `RunMigrationsOnDb`, migrate.go:95-133) -/

/-- migrate.go:95-98: `direction := DirectionUp; if target < current {
direction = DirectionDown }`. -/
def directionFor (current target : Int) : Direction :=
  if target < current then DirectionDown else DirectionUp

/-- The `continue` filters of the work-list loop (migrate.go:100-118):
UP keeps `version ≤ target` and not applied, DOWN keeps `version ≥ target`
and applied. -/
def needsWork (direction : Direction) (target : Int) (m : Migration) : Bool :=
  if direction = DirectionUp then decide (m.version ≤ target) && !m.isApplied
  else decide (target ≤ m.version) && m.isApplied

/-- migrate.go:100-118: `neededMigrations`. -/
def neededMigrations (direction : Direction) (target : Int) (ms : List Migration) : List Migration :=
  ms.filter (needsWork direction target)

/-- `migrationSorter.Less`: ascending by version (UP order). -/
def migLE (a b : Migration) : Prop := a.version ≤ b.version

/-- `sort.Reverse(migrationSorter)`: descending by version (DOWN order). -/
def migGE (a b : Migration) : Prop := b.version ≤ a.version

instance : DecidableRel migLE := fun a b => inferInstanceAs (Decidable (a.version ≤ b.version))

instance : DecidableRel migGE := fun a b => inferInstanceAs (Decidable (b.version ≤ a.version))

/-- migrate.go:128-133: `sort.Sort(ms)` for UP, `sort.Sort(sort.Reverse(ms))`
for DOWN.  Go's unstable sort is embedded as insertion sort: both produce a
permutation sorted by the comparator, and the discovered sets the planner
receives have pairwise-distinct versions (see C6), for which that sorted
permutation is unique. -/
def sortPlan (direction : Direction) (ms : List Migration) : List Migration :=
  if direction = DirectionUp then ms.insertionSort migLE
  else ms.insertionSort migGE

/-- The plan computed by `RunMigrationsOnDb` (migrate.go:95-133) before the
apply loop: direction selection, work-list filter, and ordering. -/
def migrationPlan (current target : Int) (ms : List Migration) : List Migration :=
  sortPlan (directionFor current target)
    (neededMigrations (directionFor current target) target ms)

/-! ### Applicator loop (migrate.go:135-148) -/

/-- The `for _, m := range ms` apply loop of `RunMigrationsOnDb`
(migrate.go:135-148): run each unit in order; on the first unit error
return `FAIL <err>, quitting migration` at once.  The pair returned is the
list of units that completed (the `OK` prints, i.e. the recorded outcomes)
and the optional error. -/
def applyMigrations (runUnit : Migration → Except String Unit) :
    List Migration → List Migration × Option String
  | [] => ([], none)
  | m :: rest =>
    match runUnit m with
    | .error e => ([], some ("FAIL " ++ e ++ ", quitting migration"))
    | .ok _ =>
      let r := applyMigrations runUnit rest
      (m :: r.1, r.2)

/-- Modelled from the spec: `runSQLMigration` is not under src/ (only its
caller is), and `runGoMigration`'s failure path exits via `log.Fatal`.
Section 4.6 and the section 7 taxonomy specify that a failing unit reports
`MigrationFailed{version, cause}` — the reported error names the failing
unit's version together with the underlying cause. -/
def runUnitSpec (outcome : Int → Option String) (m : Migration) : Except String Unit :=
  match outcome m.version with
  | none => .ok ()
  | some cause => .error ("migration " ++ toString m.version ++ " failed: " ++ cause)

/-! ### Database state and the dialect's history query -/

/-- The database as seen through the dialect capability: `none` means the
`goose_db_version` table does not exist; `some rs` is the ledger, held
newest-first, exactly the order (`id` descending) in which
`dbVersionQuery` yields rows. -/
structure DBState where
  table : Option (List Migration)
deriving Repr, DecidableEq

/-- Outcome of `conf.Driver.Dialect.dbVersionQuery(db)`: rows in iteration
order, the distinguished `ErrTableDoesNotExist`, or another driver error. -/
inductive QueryResult where
  | rows (rs : List Migration)
  | tableMissing
  | failure (msg : String)
deriving Repr, DecidableEq

/-- The history query against a `DBState`: the dialect returns rows ordered
newest-first, and `ErrTableDoesNotExist` when the ledger table is absent. -/
def dbVersionQuery (db : DBState) : QueryResult :=
  match db.table with
  | none => .tableMissing
  | some rs => .rows rs

/-- Embedding of `createVersionTable` (migrate.go:296-317): inside one
transaction, execute the version-table DDL and insert the seed record
`(version = 0, applied = true)`; `t` is the engine-defaulted insertion
timestamp.  The whole transaction is one atomic state update. -/
def createVersionTable (_db : DBState) (t : Nat) : DBState :=
  ⟨some [⟨0, true, t, ""⟩]⟩

/-! ### Current-version resolution (`EnsureDBVersion`) -/

/-- The `for rows.Next()` scan of `EnsureDBVersion` (migrate.go:261-291):
skip rows whose version is already in `toSkip`; return the version of the
first remaining applied row; otherwise append the version to `toSkip`.
`none` is the `panic("failure in EnsureDBVersion()")` exhaustion case. -/
def ensureScan : List Migration → List Int → Option Int
  | [], _ => none
  | r :: rest, toSkip =>
    if r.version ∈ toSkip then ensureScan rest toSkip
    else if r.isApplied then some r.version
    else ensureScan rest (toSkip ++ [r.version])

/-- Embedding of `EnsureDBVersion` (migrate.go:247-292): bootstrap the
ledger on `ErrTableDoesNotExist` and report version 0, wrap other query
errors, and otherwise resolve the current version by `ensureScan`. -/
def EnsureDBVersion (db : DBState) (t : Nat) : Except String (Int × DBState) :=
  match dbVersionQuery db with
  | .tableMissing => .ok (0, createVersionTable db t)
  | .failure e => .error ("getting db version: " ++ e)
  | .rows rs =>
    match ensureScan rs [] with
    | some v => .ok (v, db)
    | none => .error "failure in EnsureDBVersion()"

/-- Specification-side restatement of the resolution rule, following the
claim's words: walking the history front to back with the already-walked
records in `seen`, return the version of the first record whose version
does not occur among the earlier records and whose applied flag is true. -/
def firstFreshApplied : List Migration → List Migration → Option Int
  | [], _ => none
  | r :: rest, seen =>
    if (∀ p ∈ seen, p.version ≠ r.version) ∧ r.isApplied then some r.version
    else firstFreshApplied rest (seen ++ [r])

/-- The authoritative (first in newest-first iteration order) ledger record
for a version. -/
def firstRecordFor (h : List Migration) (v : Int) : Option Migration :=
  h.find? (fun r => r.version = v)

/-! ### Per-migration status resolution (`getMigrationsStatus`) -/

/-- The row-processing body of `getMigrationsStatus` (migrate.go:223-240)
for a single tracked migration: a row for a different version is the
`mm[row.Version]` map miss, a row whose timestamp is not strictly later
than the kept one is skipped, and otherwise the row's flag and timestamp
are adopted. -/
def stepUnit (row : Migration) (m : Migration) : Migration :=
  if m.version = row.version ∧ m.tstamp < row.tstamp then
    { m with isApplied := row.isApplied, tstamp := row.tstamp }
  else m

/-- One `rows.Next()` iteration over the whole tracked set.  The source
keys the migrations by version in a map of pointers; on the discovered
sets it is given (pairwise-distinct versions, the C6 invariant) updating
every list entry of the row's version is the identical operation. -/
def statusStep (ms : List Migration) (row : Migration) : List Migration :=
  ms.map (stepUnit row)

/-- migrate.go:216-221: every migration defaults to not applied before the
rows are scanned. -/
def statusInit (ms : List Migration) : List Migration :=
  ms.map fun m => { m with isApplied := false }

/-- Embedding of `getMigrationsStatus` (migrate.go:203-243):
`ErrTableDoesNotExist` resolves every migration to not applied with no
error, other query errors are wrapped, and otherwise all rows are folded
over the defaulted set. -/
def getMigrationsStatus (q : QueryResult) (ms : List Migration) : Except String (List Migration) :=
  match q with
  | .tableMissing => .ok (statusInit ms)
  | .failure e => .error ("getting db version: " ++ e)
  | .rows rows => .ok (rows.foldl statusStep (statusInit ms))

/-- Specification-side: the history record for version `v` with the
latest timestamp (the first one in query order on a tie). -/
def latestRecordFor (rows : List Migration) (v : Int) : Option Migration :=
  (rows.filter (fun r => r.version = v)).foldl
    (fun acc r =>
      match acc with
      | none => some r
      | some b => if b.tstamp < r.tstamp then some r else some b)
    none

/-! ### Previous-version lookup (`GetPreviousDBVersion`) -/

/-- The `filepath.Walk` body of `GetPreviousDBVersion` (migrate.go:340-354)
over the regular files of the directory: track the largest discovered
version strictly below `version`, and whether `version` itself was seen. -/
def previousScan (version : Int) : List String → Int → Bool → Int × Bool
  | [], previous, saw => (previous, saw)
  | name :: rest, previous, saw =>
    match NumericComponent name with
    | .error _ => previousScan version rest previous saw
    | .ok v =>
      previousScan version rest
        (if previous < v ∧ v < version then v else previous)
        (saw || (v == version))

/-- Embedding of `GetPreviousDBVersion` (migrate.go:336-368): `previous`
starts at -1; if nothing below `version` was found, seeing `version`
itself yields 0, otherwise the `ErrNoPreviousVersion` error value. -/
def GetPreviousDBVersion (files : List String) (version : Int) : Except String Int :=
  let r := previousScan version files (-1) false
  if r.1 = -1 then
    if r.2 then .ok 0 else .error "no previous version found"
  else .ok r.1

/-- The versions of the files that `NumericComponent` accepts. -/
def discoveredVersions (files : List String) : List Int :=
  files.filterMap (fun name => (NumericComponent name).toOption)

/-! ## Planner lemmas -/

instance : IsTotal Migration migLE := ⟨fun a b => le_total a.version b.version⟩

instance : IsTrans Migration migLE := ⟨fun _ _ _ h1 h2 => le_trans h1 h2⟩

instance : IsTotal Migration migGE := ⟨fun a b => le_total b.version a.version⟩

instance : IsTrans Migration migGE := ⟨fun _ _ _ h1 h2 => le_trans h2 h1⟩

theorem directionFor_up_iff (current target : Int) :
    directionFor current target = DirectionUp ↔ current ≤ target := by
  unfold directionFor DirectionUp DirectionDown
  split <;> simp <;> omega

theorem directionFor_eq_up {current target : Int} (h : current ≤ target) :
    directionFor current target = DirectionUp :=
  (directionFor_up_iff current target).2 h

theorem directionFor_eq_down {current target : Int} (h : target < current) :
    directionFor current target = DirectionDown := by
  unfold directionFor
  rw [if_pos h]

theorem up_ne_down : DirectionUp ≠ DirectionDown := by decide

theorem mem_migrationPlan_up {current target : Int} (ms : List Migration)
    (h : current ≤ target) (m : Migration) :
    m ∈ migrationPlan current target ms ↔
      m ∈ ms ∧ m.version ≤ target ∧ m.isApplied = false := by
  unfold migrationPlan sortPlan
  rw [directionFor_eq_up h, if_pos rfl, List.mem_insertionSort]
  unfold neededMigrations needsWork
  rw [List.mem_filter, if_pos rfl]
  simp [Bool.and_eq_true, decide_eq_true_iff, and_assoc]

theorem mem_migrationPlan_down {current target : Int} (ms : List Migration)
    (h : target < current) (m : Migration) :
    m ∈ migrationPlan current target ms ↔
      m ∈ ms ∧ target ≤ m.version ∧ m.isApplied = true := by
  unfold migrationPlan sortPlan
  rw [directionFor_eq_down h, if_neg (Ne.symm up_ne_down), List.mem_insertionSort]
  unfold neededMigrations needsWork
  rw [List.mem_filter, if_neg (Ne.symm up_ne_down)]
  simp [Bool.and_eq_true, decide_eq_true_iff, and_assoc]

theorem sorted_migrationPlan_up {current target : Int} (ms : List Migration)
    (h : current ≤ target) :
    (migrationPlan current target ms).Sorted migLE := by
  unfold migrationPlan sortPlan
  rw [directionFor_eq_up h, if_pos rfl]
  exact List.sorted_insertionSort migLE _

theorem sorted_migrationPlan_down {current target : Int} (ms : List Migration)
    (h : target < current) :
    (migrationPlan current target ms).Sorted migGE := by
  unfold migrationPlan sortPlan
  rw [directionFor_eq_down h, if_neg (Ne.symm up_ne_down)]
  exact List.sorted_insertionSort migGE _

/-- C2: the planner sets direction to UP exactly when `target ≥ current`
and to DOWN otherwise; the UP work-list contains exactly the units with
`version ≤ target` whose status is not-applied, ordered ascending by
version, and the DOWN work-list contains exactly the units with
`version ≥ target` whose status is applied, ordered descending by
version. -/
theorem C2_planner_direction_and_worklists (ms : List Migration) (current target : Int) :
    (directionFor current target = DirectionUp ↔ current ≤ target) ∧
    (current ≤ target →
      (∀ m, m ∈ migrationPlan current target ms ↔
        m ∈ ms ∧ m.version ≤ target ∧ m.isApplied = false) ∧
      (migrationPlan current target ms).Sorted migLE) ∧
    (target < current →
      (∀ m, m ∈ migrationPlan current target ms ↔
        m ∈ ms ∧ target ≤ m.version ∧ m.isApplied = true) ∧
      (migrationPlan current target ms).Sorted migGE) :=
  ⟨directionFor_up_iff current target,
   fun h => ⟨mem_migrationPlan_up ms h, sorted_migrationPlan_up ms h⟩,
   fun h => ⟨mem_migrationPlan_down ms h, sorted_migrationPlan_down ms h⟩⟩

/-- C2 witness: a concrete UP run of the planner. -/
theorem C2_planner_direction_and_worklists_witness :
    (directionFor 0 2 = DirectionUp ↔ (0 : Int) ≤ 2) ∧
    (migrationPlan 0 2 [⟨2, true, 0, "2_b.sql"⟩, ⟨1, false, 0, "1_a.sql"⟩]).Sorted migLE :=
  ⟨(C2_planner_direction_and_worklists
      [⟨2, true, 0, "2_b.sql"⟩, ⟨1, false, 0, "1_a.sql"⟩] 0 2).1,
   ((C2_planner_direction_and_worklists
      [⟨2, true, 0, "2_b.sql"⟩, ⟨1, false, 0, "1_a.sql"⟩] 0 2).2.1 (by decide)).2⟩

/-- C5: when the history query reports `TableDoesNotExist`,
`EnsureDBVersion` consumes the signal rather than surfacing it: it
installs the ledger table seeded with the single applied version-0 record
(the `createVersionTable` transaction, modelled as one atomic state
update) and returns current version 0 without error. -/
theorem C5_bootstrap_on_missing_table (t : Nat) :
    dbVersionQuery ⟨none⟩ = QueryResult.tableMissing ∧
    EnsureDBVersion ⟨none⟩ t = .ok (0, createVersionTable ⟨none⟩ t) ∧
    createVersionTable ⟨none⟩ t = ⟨some [⟨0, true, t, ""⟩]⟩ :=
  ⟨rfl, rfl, rfl⟩

/-- C7 counterexample: with discovered units {version 3 not applied,
version 5 applied}, current version 5 and target 5, the claim demands an
empty plan, but the computed plan contains the not-applied unit 3. -/
theorem C7_counterexample_nonempty_plan_at_equal_target :
    migrationPlan 5 5 [⟨3, false, 0, "3_a.sql"⟩, ⟨5, true, 0, "5_b.sql"⟩] =
      [⟨3, false, 0, "3_a.sql"⟩] ∧
    migrationPlan 5 5 [⟨3, false, 0, "3_a.sql"⟩, ⟨5, true, 0, "5_b.sql"⟩] ≠ [] := by
  constructor
  · rfl
  · decide

/-- C7 (amended): when the target version equals the current version the
direction is UP and the plan contains exactly the not-applied units with
version at most the target; in particular the plan is empty iff every such
unit is applied (not unconditionally). -/
theorem C7_amended_plan_at_equal_target (ms : List Migration) (v : Int) :
    directionFor v v = DirectionUp ∧
    (∀ m, m ∈ migrationPlan v v ms ↔ m ∈ ms ∧ m.version ≤ v ∧ m.isApplied = false) ∧
    (migrationPlan v v ms = [] ↔ ∀ m ∈ ms, m.version ≤ v → m.isApplied = true) := by
  refine ⟨directionFor_eq_up le_rfl, mem_migrationPlan_up ms le_rfl, ?_⟩
  rw [List.eq_nil_iff_forall_not_mem]
  constructor
  · intro hempty m hm hv
    by_contra happ
    exact hempty m ((mem_migrationPlan_up ms le_rfl m).2
      ⟨hm, hv, Bool.not_eq_true _ ▸ happ⟩)
  · intro hall m hm
    obtain ⟨hms, hv, happ⟩ := (mem_migrationPlan_up ms le_rfl m).1 hm
    rw [hall m hms hv] at happ
    cases happ

/-- C7 witness for the amended statement at a concrete instance. -/
theorem C7_amended_plan_at_equal_target_witness :
    directionFor 5 5 = DirectionUp :=
  (C7_amended_plan_at_equal_target [] 5).1

/-! ## Current-version resolution lemmas -/

/-- The `toSkip` accumulator of `ensureScan` holds exactly the versions of
the records walked so far; under that invariant the scan agrees with the
specification-side `firstFreshApplied`. -/
theorem ensureScan_eq_firstFreshApplied (h : List Migration) :
    ∀ (toSkip : List Int) (seen : List Migration),
      (∀ v, v ∈ toSkip ↔ ∃ p ∈ seen, p.version = v) →
      ensureScan h toSkip = firstFreshApplied h seen := by
  induction h with
  | nil => intro toSkip seen _; rfl
  | cons r rest ih =>
    intro toSkip seen hinv
    unfold ensureScan firstFreshApplied
    by_cases hmem : r.version ∈ toSkip
    · have hnotfresh : ¬ ((∀ p ∈ seen, p.version ≠ r.version) ∧ r.isApplied = true) := by
        obtain ⟨p, hp, hpv⟩ := (hinv r.version).1 hmem
        intro hall
        exact hall.1 p hp hpv
      rw [if_pos hmem, if_neg hnotfresh]
      refine ih toSkip (seen ++ [r]) (fun v => ?_)
      constructor
      · intro hv
        obtain ⟨p, hp, hpv⟩ := (hinv v).1 hv
        exact ⟨p, List.mem_append_left _ hp, hpv⟩
      · rintro ⟨p, hp, hpv⟩
        rcases List.mem_append.1 hp with h1 | h2
        · exact (hinv v).2 ⟨p, h1, hpv⟩
        · rw [List.mem_singleton] at h2
          subst h2
          rw [← hpv]
          exact hmem
    · have hfresh : ∀ p ∈ seen, p.version ≠ r.version := by
        intro p hp hpv
        exact hmem ((hinv r.version).2 ⟨p, hp, hpv⟩)
      rw [if_neg hmem]
      by_cases happ : r.isApplied
      · rw [if_pos happ, if_pos ⟨hfresh, happ⟩]
      · rw [if_neg happ, if_neg (fun hc => happ hc.2)]
        refine ih (toSkip ++ [r.version]) (seen ++ [r]) (fun v => ?_)
        constructor
        · intro hv
          rcases List.mem_append.1 hv with h1 | h2
          · obtain ⟨p, hp, hpv⟩ := (hinv v).1 h1
            exact ⟨p, List.mem_append_left _ hp, hpv⟩
          · rw [List.mem_singleton] at h2
            exact ⟨r, List.mem_append_right _ (List.mem_singleton.2 rfl), h2.symm⟩
        · rintro ⟨p, hp, hpv⟩
          rcases List.mem_append.1 hp with h1 | h2
          · exact List.mem_append_left _ ((hinv v).2 ⟨p, h1, hpv⟩)
          · rw [List.mem_singleton] at h2
            subst h2
            exact List.mem_append_right _ (List.mem_singleton.2 hpv.symm)

/-- Any answer of `firstFreshApplied` comes from an applied record no
earlier occurrence of whose version exists. -/
theorem firstFreshApplied_some (h : List Migration) :
    ∀ (seen : List Migration) (v : Int),
      firstFreshApplied h seen = some v →
      ∃ pre r suf, h = pre ++ r :: suf ∧ r.version = v ∧ r.isApplied = true ∧
        ∀ p ∈ seen ++ pre, p.version ≠ v := by
  induction h with
  | nil => intro seen v hres; cases hres
  | cons r rest ih =>
    intro seen v hres
    unfold firstFreshApplied at hres
    split at hres
    · rename_i hcond
      injection hres with hv
      subst hv
      refine ⟨[], r, rest, rfl, rfl, hcond.2, ?_⟩
      intro p hp
      rw [List.append_nil] at hp
      exact hcond.1 p hp
    · obtain ⟨pre, rr, suf, heq, hv, happ, hall⟩ := ih (seen ++ [r]) v hres
      refine ⟨r :: pre, rr, suf, by rw [heq]; rfl, hv, happ, ?_⟩
      intro p hp
      apply hall
      rw [List.append_assoc]
      simpa using hp

/-- A version whose authoritative (first) record is unapplied is never the
scan's answer. -/
theorem ensureScan_ne_of_first_unapplied (h : List Migration) (v : Int) (r : Migration)
    (hfirst : firstRecordFor h v = some r) (hunapp : r.isApplied = false) :
    ensureScan h [] ≠ some v := by
  intro hscan
  rw [ensureScan_eq_firstFreshApplied h [] [] (by simp)] at hscan
  obtain ⟨pre, rr, suf, heq, hv, happ, hall⟩ := firstFreshApplied_some h [] v hscan
  rw [List.nil_append] at hall
  unfold firstRecordFor at hfirst
  rw [heq, List.find?_append] at hfirst
  have hpre : List.find? (fun p => p.version = v) pre = none := by
    rw [List.find?_eq_none]
    intro p hp
    simpa using hall p hp
  rw [hpre, Option.none_or] at hfirst
  have : List.find? (fun p => p.version = v) (rr :: suf) = some rr := by
    rw [List.find?_cons_of_pos]
    simpa using hv
  rw [this] at hfirst
  injection hfirst with hr
  rw [← hr] at hunapp
  rw [happ] at hunapp
  cases hunapp

/-- C1: iterating the history newest-first, `EnsureDBVersion` returns the
version of the first record whose version has not occurred earlier in the
iteration and whose applied flag is true (records of already-seen versions
are ignored), and a version whose first-seen record is unapplied joins the
skip set and is never returned. -/
theorem C1_current_version_resolution (h : List Migration) (t : Nat) :
    (EnsureDBVersion ⟨some h⟩ t =
      match firstFreshApplied h [] with
      | some v => .ok (v, ⟨some h⟩)
      | none => .error "failure in EnsureDBVersion()") ∧
    (∀ v r, firstRecordFor h v = some r → r.isApplied = false →
      ensureScan h [] ≠ some v) := by
  constructor
  · show (match ensureScan h [] with
      | some v => Except.ok (v, DBState.mk (some h))
      | none => Except.error "failure in EnsureDBVersion()") = _
    rw [ensureScan_eq_firstFreshApplied h [] [] (by simp)]
  · intro v r hfirst hunapp
    exact ensureScan_ne_of_first_unapplied h v r hfirst hunapp

/-- C1 witness: version 5 is reverted (its newest record is unapplied), so
the scan skips it and answers 3; in particular it never answers 5. -/
theorem C1_current_version_resolution_witness :
    EnsureDBVersion ⟨some [⟨5, false, 3, ""⟩, ⟨5, true, 2, ""⟩, ⟨3, true, 1, ""⟩]⟩ 0 =
      .ok (3, ⟨some [⟨5, false, 3, ""⟩, ⟨5, true, 2, ""⟩, ⟨3, true, 1, ""⟩]⟩) ∧
    ensureScan [⟨5, false, 3, ""⟩, ⟨5, true, 2, ""⟩, ⟨3, true, 1, ""⟩] [] ≠ some 5 := by
  have h := C1_current_version_resolution
    [⟨5, false, 3, ""⟩, ⟨5, true, 2, ""⟩, ⟨3, true, 1, ""⟩] 0
  exact ⟨h.1, h.2 5 ⟨5, false, 3, ""⟩ rfl rfl⟩

/-! ## Applicator lemmas -/

/-- The apply loop on a plan whose first failing unit is `mf`: every unit
before `mf` completes, the loop stops at `mf` with the wrapped error, and
nothing after `mf` is attempted. -/
theorem applyMigrations_first_failure (outcome : Int → Option String) (mf : Migration)
    (cause : String) (hf : outcome mf.version = some cause) :
    ∀ (pre post : List Migration), (∀ m ∈ pre, outcome m.version = none) →
      applyMigrations (runUnitSpec outcome) (pre ++ mf :: post) =
        (pre, some ("FAIL " ++ ("migration " ++ toString mf.version ++ " failed: " ++ cause) ++
          ", quitting migration")) := by
  have hstepf : runUnitSpec outcome mf =
      Except.error ("migration " ++ toString mf.version ++ " failed: " ++ cause) := by
    unfold runUnitSpec
    rw [hf]
  intro pre
  induction pre with
  | nil =>
    intro post _
    rw [List.nil_append]
    simp only [applyMigrations]
    rw [hstepf]
  | cons p ps ih =>
    intro post hpre
    have hstep : runUnitSpec outcome p = Except.ok () := by
      unfold runUnitSpec
      rw [hpre p (List.mem_cons_self p ps)]
    rw [List.cons_append]
    simp only [applyMigrations]
    rw [hstep, ih post (fun m hm => hpre m (List.mem_cons_of_mem p hm))]

/-- C4: when a unit of the ordered plan fails, `RunMigrationsOnDb` returns
an error immediately: units completed before the failing one keep their
recorded outcome (the completed list is exactly the preceding ones), no
later unit is attempted (the result does not depend on the runner's
behaviour past the failing unit), and the reported error contains the
failing unit's version.  The per-unit runner is modelled from the spec
(`MigrationFailed{version, cause}`), `runSQLMigration` not being part of
the sources at hand. -/
theorem C4_failure_stops_run (pre post : List Migration) (mf : Migration)
    (outcome : Int → Option String) (cause : String)
    (hpre : ∀ m ∈ pre, outcome m.version = none)
    (hf : outcome mf.version = some cause) :
    applyMigrations (runUnitSpec outcome) (pre ++ mf :: post) =
      (pre, some ("FAIL " ++ ("migration " ++ toString mf.version ++ " failed: " ++ cause) ++
        ", quitting migration")) ∧
    (∃ s1 s2, ("FAIL " ++ ("migration " ++ toString mf.version ++ " failed: " ++ cause) ++
        ", quitting migration") = s1 ++ toString mf.version ++ s2) ∧
    (∀ outcome', (∀ m ∈ pre, outcome' m.version = none) →
      outcome' mf.version = some cause →
      applyMigrations (runUnitSpec outcome') (pre ++ mf :: post) =
        applyMigrations (runUnitSpec outcome) (pre ++ mf :: post)) := by
  refine ⟨applyMigrations_first_failure outcome mf cause hf pre post hpre, ?_, ?_⟩
  · refine ⟨"FAIL " ++ "migration ", " failed: " ++ cause ++ ", quitting migration", ?_⟩
    simp [← String.append_assoc]
  · intro outcome' hpre' hf'
    rw [applyMigrations_first_failure outcome' mf cause hf' pre post hpre',
      applyMigrations_first_failure outcome mf cause hf pre post hpre]

/-- C4 witness: units [1, 2, 3] where unit 2 fails; unit 1 completes, the
run stops with an error naming version 2, unit 3 is not attempted. -/
theorem C4_failure_stops_run_witness :
    applyMigrations
      (runUnitSpec (fun v => if v = 2 then some "boom" else none))
      ([⟨1, false, 0, "1_a.sql"⟩] ++ ⟨2, false, 0, "2_b.sql"⟩ :: [⟨3, false, 0, "3_c.sql"⟩]) =
      ([⟨1, false, 0, "1_a.sql"⟩],
        some ("FAIL " ++ ("migration " ++ toString (2 : Int) ++ " failed: " ++ "boom") ++
          ", quitting migration")) :=
  (C4_failure_stops_run [⟨1, false, 0, "1_a.sql"⟩] [⟨3, false, 0, "3_c.sql"⟩]
    ⟨2, false, 0, "2_b.sql"⟩ (fun v => if v = 2 then some "boom" else none) "boom"
    (by intro m hm; rw [List.mem_singleton] at hm; subst hm; rfl) rfl).1

/-! ## Status-resolution lemmas -/

theorem stepUnit_version (row m : Migration) : (stepUnit row m).version = m.version := by
  unfold stepUnit
  split <;> rfl

theorem stepUnit_source (row m : Migration) : (stepUnit row m).source = m.source := by
  unfold stepUnit
  split <;> rfl

theorem stepUnit_tstamp_le (row m : Migration) : m.tstamp ≤ (stepUnit row m).tstamp := by
  unfold stepUnit
  split
  · rename_i hc
    exact le_of_lt hc.2
  · exact le_rfl

theorem stepUnit_cases (row m : Migration) :
    stepUnit row m = m ∨
      (m.version = row.version ∧ (stepUnit row m).isApplied = row.isApplied ∧
        (stepUnit row m).tstamp = row.tstamp) := by
  unfold stepUnit
  split
  · rename_i hc
    exact Or.inr ⟨hc.1, rfl, rfl⟩
  · exact Or.inl rfl

theorem stepUnit_ts_ge (row m : Migration) (hv : row.version = m.version) :
    row.tstamp ≤ (stepUnit row m).tstamp := by
  unfold stepUnit
  split
  · exact le_rfl
  · rename_i hc
    rw [Classical.not_and_iff_or_not_not] at hc
    rcases hc with h1 | h2
    · exact absurd hv.symm h1
    · exact le_of_not_lt h2

theorem stepUnit_eq_self (row m : Migration)
    (h : ¬(m.version = row.version ∧ m.tstamp < row.tstamp)) : stepUnit row m = m := by
  unfold stepUnit
  rw [if_neg h]

/-- Folding the per-row update over the whole tracked set is the map of
the per-unit fold: each unit's final state depends only on its own row
matches. -/
theorem statusFold_map (rows : List Migration) :
    ∀ ms : List Migration,
      rows.foldl statusStep ms =
        ms.map (fun m => rows.foldl (fun m r => stepUnit r m) m) := by
  induction rows with
  | nil => intro ms; simp
  | cons r rest ih =>
    intro ms
    rw [List.foldl_cons]
    show rest.foldl statusStep (statusStep ms r) = _
    rw [ih (statusStep ms r)]
    unfold statusStep
    rw [List.map_map]
    rfl

/-- Full characterisation of the per-unit fold: version and source are
fixed, the timestamp never decreases, the final state either is the
initial one or copies some matching row, and the final timestamp bounds
every matching row's timestamp. -/
theorem foldUnit_spec (rows : List Migration) :
    ∀ m0 : Migration,
      (rows.foldl (fun m r => stepUnit r m) m0).version = m0.version ∧
      (rows.foldl (fun m r => stepUnit r m) m0).source = m0.source ∧
      m0.tstamp ≤ (rows.foldl (fun m r => stepUnit r m) m0).tstamp ∧
      (rows.foldl (fun m r => stepUnit r m) m0 = m0 ∨
        ∃ r ∈ rows, r.version = m0.version ∧
          (rows.foldl (fun m r => stepUnit r m) m0).isApplied = r.isApplied ∧
          (rows.foldl (fun m r => stepUnit r m) m0).tstamp = r.tstamp) ∧
      (∀ r ∈ rows, r.version = m0.version →
        r.tstamp ≤ (rows.foldl (fun m r => stepUnit r m) m0).tstamp) := by
  induction rows with
  | nil =>
    intro m0
    refine ⟨rfl, rfl, le_rfl, Or.inl rfl, ?_⟩
    intro r hr
    cases hr
  | cons r rest ih =>
    intro m0
    rw [List.foldl_cons]
    obtain ⟨hv, hs, hts, hcase, hmax⟩ := ih (stepUnit r m0)
    have hv1 : (stepUnit r m0).version = m0.version := stepUnit_version r m0
    refine ⟨hv.trans hv1, hs.trans (stepUnit_source r m0),
      le_trans (stepUnit_tstamp_le r m0) hts, ?_, ?_⟩
    · rcases hcase with heq | ⟨r', hr', hr'v, happ, hts'⟩
      · rcases stepUnit_cases r m0 with heq0 | ⟨hvm, happ0, hts0⟩
        · exact Or.inl (heq.trans heq0)
        · refine Or.inr ⟨r, List.mem_cons_self r rest, hvm.symm, ?_, ?_⟩
          · rw [heq, happ0]
          · rw [heq, hts0]
      · exact Or.inr ⟨r', List.mem_cons_of_mem r hr', hr'v.trans hv1, happ, hts'⟩
    · intro r'' hr'' hr''v
      rcases List.mem_cons.1 hr'' with heq | hmem
      · subst heq
        exact le_trans (stepUnit_ts_ge r'' m0 hr''v) hts
      · exact hmax r'' hmem (hr''v.trans hv1.symm)

/-- C3: per-migration status resolution assigns each unit the applied flag
of the matching history record of maximal timestamp (scanning all records,
not stopping early), units with no matching record resolve to not applied,
and a `TableDoesNotExist` history query resolves every unit to not applied
without error. -/
theorem C3_per_migration_status (units rows : List Migration)
    (_hnd : (units.map (fun u => u.version)).Nodup)
    (hinit : ∀ u ∈ units, u.tstamp = 0)
    (hpos : ∀ r ∈ rows, 0 < r.tstamp) :
    (getMigrationsStatus .tableMissing units = .ok (statusInit units) ∧
      ∀ u ∈ statusInit units, u.isApplied = false) ∧
    ∃ res, getMigrationsStatus (.rows rows) units = .ok res ∧
      res.map (fun u => u.version) = units.map (fun u => u.version) ∧
      res.map (fun u => u.source) = units.map (fun u => u.source) ∧
      ∀ u ∈ res,
        ((∃ r ∈ rows, r.version = u.version) →
          ∃ r ∈ rows, r.version = u.version ∧ u.isApplied = r.isApplied ∧
            ∀ r' ∈ rows, r'.version = u.version → r'.tstamp ≤ r.tstamp) ∧
        ((¬ ∃ r ∈ rows, r.version = u.version) → u.isApplied = false) := by
  constructor
  · refine ⟨rfl, ?_⟩
    intro u hu
    obtain ⟨u0, _, hu0⟩ := List.mem_map.1 hu
    rw [← hu0]
  · refine ⟨rows.foldl statusStep (statusInit units), rfl, ?_, ?_, ?_⟩
    · rw [statusFold_map]
      unfold statusInit
      rw [List.map_map, List.map_map]
      refine List.map_congr_left ?_
      intro u0 _
      exact (foldUnit_spec rows _).1
    · rw [statusFold_map]
      unfold statusInit
      rw [List.map_map, List.map_map]
      refine List.map_congr_left ?_
      intro u0 _
      exact (foldUnit_spec rows _).2.1
    · intro u hu
      rw [statusFold_map] at hu
      obtain ⟨m0, hm0, hm0u⟩ := List.mem_map.1 hu
      obtain ⟨u0, hu0, hu0m⟩ := List.mem_map.1 hm0
      obtain ⟨hv, _, _, hcase, hmax⟩ := foldUnit_spec rows m0
      have hm0ts : m0.tstamp = 0 := by
        rw [← hu0m]
        exact hinit u0 hu0
      have hm0app : m0.isApplied = false := by
        rw [← hu0m]
      have huv : u.version = m0.version := by
        rw [← hm0u]
        exact hv
      constructor
      · rintro ⟨r0, hr0, hr0v⟩
        rcases hcase with heq | ⟨r, hr, hrv, happ, hts⟩
        · exfalso
          have := hmax r0 hr0 (by rw [hr0v, huv])
          rw [heq, hm0ts] at this
          exact absurd (hpos r0 hr0) (by omega)
        · refine ⟨r, hr, by rw [hrv, ← huv], ?_, ?_⟩
          · rw [← hm0u, happ]
          · intro r' hr' hr'v
            have := hmax r' hr' (by rw [hr'v, huv])
            rw [← hts]
            exact this
      · intro hnone
        rcases hcase with heq | ⟨r, hr, hrv, _, _⟩
        · rw [← hm0u, heq]
          exact hm0app
        · exact absurd ⟨r, hr, by rw [hrv, huv]⟩ hnone

/-- C3 witness: one unit of version 1; history has an applied record at
timestamp 4 and a reverting record at timestamp 6, so the unit resolves to
not applied; the `TableDoesNotExist` branch also resolves to not applied. -/
theorem C3_per_migration_status_witness :
    getMigrationsStatus .tableMissing [⟨1, true, 0, "1_a.sql"⟩] =
      .ok (statusInit [⟨1, true, 0, "1_a.sql"⟩]) := by
  have h := C3_per_migration_status [⟨1, true, 0, "1_a.sql"⟩]
    [⟨1, true, 4, ""⟩, ⟨1, false, 6, ""⟩] (by decide)
    (by intro u hu; rw [List.mem_singleton] at hu; subst hu; rfl)
    (by decide)
  exact h.1.1

/-- The per-unit fold over a list of rows, split at an append. -/
theorem foldUnit_append (a b : List Migration) (m0 : Migration) :
    (a ++ b).foldl (fun m r => stepUnit r m) m0 =
      b.foldl (fun m r => stepUnit r m) (a.foldl (fun m r => stepUnit r m) m0) :=
  List.foldl_append _ _ a b

/-- C10: a history row whose timestamp is not strictly later than the kept
one is ignored; of two same-version rows with equal timestamps the one
encountered first in query order decides (the later one can be deleted
without changing the result); and rows whose version matches no tracked
unit never affect the result. -/
theorem C10_row_skipping_rules :
    (∀ row m, m.version = row.version → row.tstamp ≤ m.tstamp → stepUnit row m = m) ∧
    (∀ (ms l1 l2 l3 : List Migration) (r1 r2 : Migration),
      r1.version = r2.version → r1.tstamp = r2.tstamp →
      List.foldl statusStep ms (l1 ++ r1 :: (l2 ++ r2 :: l3)) =
        List.foldl statusStep ms (l1 ++ r1 :: (l2 ++ l3))) ∧
    (∀ (ms pre suf : List Migration) (row : Migration),
      (∀ m ∈ ms, m.version ≠ row.version) →
      List.foldl statusStep ms (pre ++ row :: suf) =
        List.foldl statusStep ms (pre ++ suf)) := by
  refine ⟨?_, ?_, ?_⟩
  · intro row m _ hts
    exact stepUnit_eq_self row m (fun hc => absurd hts (not_le.2 hc.2))
  · intro ms l1 l2 l3 r1 r2 hv hts
    rw [statusFold_map, statusFold_map]
    refine List.map_congr_left ?_
    intro m0 _
    rw [foldUnit_append, foldUnit_append, List.foldl_cons, List.foldl_cons,
      foldUnit_append, foldUnit_append, List.foldl_cons]
    congr 1
    refine stepUnit_eq_self r2 _ ?_
    rintro ⟨hver, hlt⟩
    have hver1 : r1.version =
        (List.foldl (fun m r => stepUnit r m)
          (stepUnit r1 (List.foldl (fun m r => stepUnit r m) m0 l1)) l2).version := by
      rw [hv, ← hver]
    have h1 : r1.tstamp ≤ (stepUnit r1 (List.foldl (fun m r => stepUnit r m) m0 l1)).tstamp :=
      stepUnit_ts_ge r1 _ (by rw [(foldUnit_spec l2 _).1] at hver1; rw [hver1, stepUnit_version])
    have h2 := (foldUnit_spec l2 (stepUnit r1 (List.foldl (fun m r => stepUnit r m) m0 l1))).2.2.1
    rw [← hts] at hlt
    omega
  · intro ms pre suf row hrow
    rw [statusFold_map, statusFold_map]
    refine List.map_congr_left ?_
    intro m0 hm0
    rw [foldUnit_append, foldUnit_append, List.foldl_cons]
    congr 1
    refine stepUnit_eq_self row _ ?_
    rintro ⟨hver, _⟩
    rw [(foldUnit_spec pre m0).1] at hver
    exact hrow m0 hm0 hver

/-- C10 witness: two rows of version 1 with equal timestamp 5; the second
is ignored, so the fold over both equals the fold over just the first. -/
theorem C10_row_skipping_rules_witness :
    List.foldl statusStep [⟨1, false, 0, "1_a.sql"⟩]
      ([] ++ ⟨1, true, 5, ""⟩ :: ([] ++ ⟨1, false, 5, ""⟩ :: [])) =
      List.foldl statusStep [⟨1, false, 0, "1_a.sql"⟩]
        ([] ++ ⟨1, true, 5, ""⟩ :: ([] ++ [])) :=
  C10_row_skipping_rules.2.1 [⟨1, false, 0, "1_a.sql"⟩] [] [] []
    ⟨1, true, 5, ""⟩ ⟨1, false, 5, ""⟩ rfl rfl

/-! ## Discovery lemmas -/

/-- Two distinct positions in the walk order both resolve to the same
version. -/
def HasDuplicateVersion (files : List String) : Prop :=
  ∃ pre mid suf na nb v, files = pre ++ na :: (mid ++ nb :: suf) ∧
    NumericComponent na = .ok v ∧ NumericComponent nb = .ok v

/-- The fatal error names both offending paths: its first source is an
earlier walked file of the duplicated version, and its second source is
the `filepath.Join` of the directory with a later one. -/
def NamesBothPaths (dirpath : String) (files : List String) (c : ConfigErr) : Prop :=
  ∃ pre mid suf nb, files = pre ++ c.firstSource :: (mid ++ nb :: suf) ∧
    NumericComponent c.firstSource = .ok c.version ∧
    NumericComponent nb = .ok c.version ∧
    c.secondSource = pathJoin dirpath nb

theorem collectLoop_cons_err (dirpath name : String) (rest : List String)
    (m : List Migration) (e : String) (h : NumericComponent name = .error e) :
    collectLoop dirpath (name :: rest) m = collectLoop dirpath rest m := by
  show (match NumericComponent name with
    | .error _ => collectLoop dirpath rest m
    | .ok v =>
      match m.find? (fun (g : Migration) => g.version = v) with
      | some g => Except.error (ConfigErr.mk v g.source (pathJoin dirpath name))
      | none => collectLoop dirpath rest (m ++ [Migration.mk v false 0 name])) = _
  rw [h]

theorem collectLoop_cons_dup (dirpath name : String) (rest : List String)
    (m : List Migration) (v : Int) (g : Migration)
    (h1 : NumericComponent name = .ok v)
    (h2 : m.find? (fun g => g.version = v) = some g) :
    collectLoop dirpath (name :: rest) m =
      .error ⟨v, g.source, pathJoin dirpath name⟩ := by
  show (match NumericComponent name with
    | .error _ => collectLoop dirpath rest m
    | .ok v =>
      match m.find? (fun (g : Migration) => g.version = v) with
      | some g => Except.error (ConfigErr.mk v g.source (pathJoin dirpath name))
      | none => collectLoop dirpath rest (m ++ [Migration.mk v false 0 name])) = _
  rw [h1]
  show (match m.find? (fun g => g.version = v) with
    | some g => Except.error (ConfigErr.mk v g.source (pathJoin dirpath name))
    | none => collectLoop dirpath rest (m ++ [Migration.mk v false 0 name])) = _
  rw [h2]

theorem collectLoop_cons_new (dirpath name : String) (rest : List String)
    (m : List Migration) (v : Int)
    (h1 : NumericComponent name = .ok v)
    (h2 : m.find? (fun g => g.version = v) = none) :
    collectLoop dirpath (name :: rest) m =
      collectLoop dirpath rest (m ++ [⟨v, false, 0, name⟩]) := by
  show (match NumericComponent name with
    | .error _ => collectLoop dirpath rest m
    | .ok v =>
      match m.find? (fun (g : Migration) => g.version = v) with
      | some g => Except.error (ConfigErr.mk v g.source (pathJoin dirpath name))
      | none => collectLoop dirpath rest (m ++ [Migration.mk v false 0 name])) = _
  rw [h1]
  show (match m.find? (fun g => g.version = v) with
    | some g => Except.error (ConfigErr.mk v g.source (pathJoin dirpath name))
    | none => collectLoop dirpath rest (m ++ [Migration.mk v false 0 name])) = _
  rw [h2]

/-- Every collected migration in the accumulator parses back to its own
version and was walked earlier; a fatal outcome therefore exhibits two
distinct files of the same version, both named by the error. -/
theorem collectLoop_error_names (dirpath : String) :
    ∀ (rest : List String) (m : List Migration) (front : List String) (c : ConfigErr),
      (∀ g ∈ m, NumericComponent g.source = .ok g.version ∧ g.source ∈ front) →
      collectLoop dirpath rest m = .error c →
      NamesBothPaths dirpath (front ++ rest) c := by
  intro rest
  induction rest with
  | nil => intro m front c _ herr; cases herr
  | cons name rest' ih =>
    intro m front c hinva herr
    cases hnc : NumericComponent name with
    | error e =>
      rw [collectLoop_cons_err dirpath name rest' m e hnc] at herr
      have := ih m (front ++ [name]) c
        (fun g hg => ⟨(hinva g hg).1, List.mem_append_left _ (hinva g hg).2⟩) herr
      rw [List.append_assoc] at this
      simpa using this
    | ok v =>
      cases hfind : m.find? (fun g => g.version = v) with
      | some g =>
        rw [collectLoop_cons_dup dirpath name rest' m v g hnc hfind] at herr
        injection herr with hc
        have hgv : g.version = v := by
          have := List.find?_some hfind
          simpa using this
        have hgm : g ∈ m := List.mem_of_find?_eq_some hfind
        obtain ⟨hgnum, hgfront⟩ := hinva g hgm
        obtain ⟨p, q, hpq⟩ := List.append_of_mem hgfront
        refine ⟨p, q, rest', name, ?_, ?_, ?_, ?_⟩
        · rw [hpq, ← hc]
          simp
        · rw [← hc]
          show NumericComponent g.source = Except.ok v
          rw [hgnum, hgv]
        · rw [← hc]
          show NumericComponent name = Except.ok v
          exact hnc
        · rw [← hc]
      | none =>
        rw [collectLoop_cons_new dirpath name rest' m v hnc hfind] at herr
        have := ih (m ++ [⟨v, false, 0, name⟩]) (front ++ [name]) c
          (fun g hg => by
            rcases List.mem_append.1 hg with h1 | h2
            · exact ⟨(hinva g h1).1, List.mem_append_left _ (hinva g h1).2⟩
            · rw [List.mem_singleton] at h2
              subst h2
              exact ⟨hnc, List.mem_append_right _ (List.mem_singleton.2 rfl)⟩)
          herr
        rw [List.append_assoc] at this
        simpa using this

/-- A walk containing a duplicated version (or a file duplicating a
version already collected) ends in the fatal error. -/
theorem collectLoop_error_of_dup (dirpath : String) :
    ∀ (rest : List String) (m : List Migration),
      (HasDuplicateVersion rest ∨
        (∃ nb ∈ rest, ∃ v, NumericComponent nb = .ok v ∧ ∃ g ∈ m, g.version = v)) →
      ∃ c, collectLoop dirpath rest m = .error c := by
  intro rest
  induction rest with
  | nil =>
    rintro m (⟨pre, mid, suf, na, nb, v, heq, _, _⟩ | ⟨nb, hnb, _⟩)
    · exact absurd heq (by simp)
    · cases hnb
  | cons name rest' ih =>
    intro m hdup
    cases hnc : NumericComponent name with
    | error e =>
      rw [collectLoop_cons_err dirpath name rest' m e hnc]
      refine ih m ?_
      rcases hdup with ⟨pre, mid, suf, na, nb, v, heq, hna, hnb⟩ | ⟨nb, hnb, v, hv, hg⟩
      · cases pre with
        | nil =>
          rw [List.nil_append] at heq
          injection heq with h1 h2
          subst h1
          rw [hna] at hnc
          cases hnc
        | cons p ps =>
          rw [List.cons_append] at heq
          injection heq with h1 h2
          exact Or.inl ⟨ps, mid, suf, na, nb, v, h2, hna, hnb⟩
      · rcases List.mem_cons.1 hnb with h1 | h2
        · subst h1
          rw [hv] at hnc
          cases hnc
        · exact Or.inr ⟨nb, h2, v, hv, hg⟩
    | ok v =>
      cases hfind : m.find? (fun g => g.version = v) with
      | some g => exact ⟨_, collectLoop_cons_dup dirpath name rest' m v g hnc hfind⟩
      | none =>
        rw [collectLoop_cons_new dirpath name rest' m v hnc hfind]
        refine ih (m ++ [⟨v, false, 0, name⟩]) ?_
        have hnotin : ∀ g ∈ m, g.version ≠ v := by
          intro g hg
          have := List.find?_eq_none.1 hfind g hg
          simpa using this
        rcases hdup with ⟨pre, mid, suf, na, nb, v', heq, hna, hnb⟩ | ⟨nb, hnb, v', hv', hg⟩
        · cases pre with
          | nil =>
            rw [List.nil_append] at heq
            injection heq with h1 h2
            subst h1
            rw [hna] at hnc
            injection hnc with hvv
            refine Or.inr ⟨nb, ?_, v', hnb, ⟨v, false, 0, name⟩,
              List.mem_append_right _ (List.mem_singleton.2 rfl), by rw [hvv]⟩
            rw [h2]
            exact List.mem_append_right _ (List.mem_cons_self nb suf)
          | cons p ps =>
            rw [List.cons_append] at heq
            injection heq with h1 h2
            exact Or.inl ⟨ps, mid, suf, na, nb, v', h2, hna, hnb⟩
        · rcases List.mem_cons.1 hnb with h1 | h2
          · subst h1
            rw [hv'] at hnc
            injection hnc with hvv
            obtain ⟨g, hgm, hgv⟩ := hg
            exact absurd (by rw [hgv, ← hvv]) (hnotin g hgm)
          · exact Or.inr ⟨nb, h2, v', hv', hg.elim
              (fun g hgg => ⟨g, List.mem_append_left _ hgg.1, hgg.2⟩)⟩

/-- A successful walk yields pairwise-distinct versions. -/
theorem collectLoop_ok_nodup (dirpath : String) :
    ∀ (files : List String) (m res : List Migration),
      (m.map (fun g => g.version)).Nodup →
      collectLoop dirpath files m = .ok res →
      (res.map (fun g => g.version)).Nodup := by
  intro files
  induction files with
  | nil =>
    intro m res h hok
    injection hok with h1
    rw [← h1]
    exact h
  | cons name rest ih =>
    intro m res h hok
    cases hnc : NumericComponent name with
    | error e =>
      rw [collectLoop_cons_err dirpath name rest m e hnc] at hok
      exact ih m res h hok
    | ok v =>
      cases hfind : m.find? (fun g => g.version = v) with
      | some g =>
        rw [collectLoop_cons_dup dirpath name rest m v g hnc hfind] at hok
        cases hok
      | none =>
        rw [collectLoop_cons_new dirpath name rest m v hnc hfind] at hok
        refine ih _ res ?_ hok
        rw [List.map_append, List.nodup_append]
        refine ⟨h, by simp, ?_⟩
        intro x hx hy
        rw [List.map_singleton, List.mem_singleton] at hy
        subst hy
        obtain ⟨g, hg, hgx⟩ := List.mem_map.1 hx
        have := List.find?_eq_none.1 hfind g hg
        simp at this
        exact this hgx

/-- C6: a walk containing two files that resolve to the same version is a
fatal configuration error whose message names both offending paths (one
is never silently picked); consequently every successfully discovered set
has pairwise-distinct versions. -/
theorem C6_duplicate_version_fatal (dirpath : String) (files : List String) :
    (HasDuplicateVersion files →
      ∃ c, CollectMigrations dirpath files = .error c ∧ NamesBothPaths dirpath files c) ∧
    (∀ res, CollectMigrations dirpath files = .ok res →
      (res.map (fun g => g.version)).Nodup) := by
  constructor
  · intro hdup
    obtain ⟨c, hc⟩ := collectLoop_error_of_dup dirpath files [] (Or.inl hdup)
    refine ⟨c, hc, ?_⟩
    have := collectLoop_error_names dirpath files [] [] c (by simp) hc
    simpa using this
  · intro res h
    exact collectLoop_ok_nodup dirpath files [] res (by simp) h

/-- C6 witness: `1_a.sql` and `001_b.sql` both resolve to version 1; the
walk is fatal and the error names both files. -/
theorem C6_duplicate_version_fatal_witness :
    ∃ c, CollectMigrations "db" ["1_a.sql", "001_b.sql"] = .error c ∧
      NamesBothPaths "db" ["1_a.sql", "001_b.sql"] c :=
  (C6_duplicate_version_fatal "db" ["1_a.sql", "001_b.sql"]).1
    ⟨[], [], [], "1_a.sql", "001_b.sql", 1, rfl, rfl, rfl⟩

/-! ## Skipped files (C8) -/

/-- A file rejected by `NumericComponent` is invisible to the walk: the
collection over any file list with it equals the collection without it. -/
theorem collectLoop_skip (dirpath name : String) (e : String)
    (hname : NumericComponent name = .error e) :
    ∀ (pre suf : List String) (m : List Migration),
      collectLoop dirpath (pre ++ name :: suf) m = collectLoop dirpath (pre ++ suf) m := by
  intro pre
  induction pre with
  | nil =>
    intro suf m
    rw [List.nil_append, List.nil_append, collectLoop_cons_err dirpath name suf m e hname]
  | cons p ps ih =>
    intro suf m
    rw [List.cons_append, List.cons_append]
    cases hp : NumericComponent p with
    | error e2 =>
      rw [collectLoop_cons_err dirpath p _ m e2 hp, collectLoop_cons_err dirpath p _ m e2 hp]
      exact ih suf m
    | ok v =>
      cases hfind : m.find? (fun g => g.version = v) with
      | some g =>
        rw [collectLoop_cons_dup dirpath p _ m v g hp hfind,
          collectLoop_cons_dup dirpath p _ m v g hp hfind]
      | none =>
        rw [collectLoop_cons_new dirpath p _ m v hp hfind,
          collectLoop_cons_new dirpath p _ m v hp hfind]
        exact ih suf _

/-- C8 counterexample: `0_init.sql` has version 0, yet `CollectMigrations`
over a directory containing only it succeeds with the file excluded
instead of failing with a `ConfigError`. -/
theorem C8_counterexample_zero_version_skipped :
    NumericComponent "0_init.sql" = .error "migration IDs must be greater than zero" ∧
    CollectMigrations "db" ["0_init.sql"] = .ok [] :=
  ⟨rfl, rfl⟩

/-- C8 (amended): a migration file whose leading digit run before the
first underscore parses to zero or a negative integer is rejected by
`NumericComponent` with the dedicated error, but `CollectMigrations`
silently excludes such a file and succeeds with the remaining ones. -/
theorem C8_amended_nonpositive_version_excluded (dirpath name : String)
    (pre suf : List String) (idx : Nat) (n : Int)
    (hext : filepathExt (filepathBase name) = ".go" ∨ filepathExt (filepathBase name) = ".sql")
    (hidx : stringIndex (filepathBase name) '_' = some idx)
    (hparse : parseInt64 (String.mk ((filepathBase name).toList.take idx)) = some n)
    (hn : n ≤ 0) :
    NumericComponent name = .error "migration IDs must be greater than zero" ∧
    CollectMigrations dirpath (pre ++ name :: suf) = CollectMigrations dirpath (pre ++ suf) := by
  have hcond : ¬(filepathExt (filepathBase name) ≠ ".go" ∧
      filepathExt (filepathBase name) ≠ ".sql") := by
    rcases hext with h | h <;> simp [h]
  have h1 : NumericComponent name = .error "migration IDs must be greater than zero" := by
    unfold NumericComponent
    rw [if_neg hcond, hidx]
    show (match parseInt64 (String.mk ((filepathBase name).toList.take idx)) with
      | none => Except.error "strconv.ParseInt: parsing error"
      | some n =>
        if n ≤ 0 then Except.error "migration IDs must be greater than zero"
        else Except.ok n) = _
    rw [hparse]
    show (if n ≤ 0 then Except.error "migration IDs must be greater than zero"
      else Except.ok n) = _
    rw [if_pos hn]
  exact ⟨h1, collectLoop_skip dirpath name _ h1 pre suf []⟩

/-- C8 witness: `0_b.sql` next to `1_a.sql` is silently excluded. -/
theorem C8_amended_nonpositive_version_excluded_witness :
    NumericComponent "0_b.sql" = .error "migration IDs must be greater than zero" ∧
    CollectMigrations "db" (["1_a.sql"] ++ "0_b.sql" :: []) =
      CollectMigrations "db" (["1_a.sql"] ++ []) :=
  C8_amended_nonpositive_version_excluded "db" "0_b.sql" ["1_a.sql"] [] 1 0
    (Or.inr rfl) rfl rfl (by decide)

/-! ## Previous-version lemmas (C9) -/

theorem discoveredVersions_cons_err (name : String) (rest : List String) (e : String)
    (h : NumericComponent name = .error e) :
    discoveredVersions (name :: rest) = discoveredVersions rest := by
  unfold discoveredVersions
  rw [List.filterMap_cons, h]
  rfl

theorem discoveredVersions_cons_ok (name : String) (rest : List String) (v : Int)
    (h : NumericComponent name = .ok v) :
    discoveredVersions (name :: rest) = v :: discoveredVersions rest := by
  unfold discoveredVersions
  rw [List.filterMap_cons, h]
  rfl

theorem previousScan_cons_err (version : Int) (name : String) (rest : List String)
    (p : Int) (s : Bool) (e : String) (h : NumericComponent name = .error e) :
    previousScan version (name :: rest) p s = previousScan version rest p s := by
  show (match NumericComponent name with
    | .error _ => previousScan version rest p s
    | .ok v => previousScan version rest
        (if p < v ∧ v < version then v else p) (s || (v == version))) = _
  rw [h]

theorem previousScan_cons_ok (version : Int) (name : String) (rest : List String)
    (p : Int) (s : Bool) (v : Int) (h : NumericComponent name = .ok v) :
    previousScan version (name :: rest) p s =
      previousScan version rest (if p < v ∧ v < version then v else p) (s || (v == version)) := by
  show (match NumericComponent name with
    | .error _ => previousScan version rest p s
    | .ok v => previousScan version rest
        (if p < v ∧ v < version then v else p) (s || (v == version))) = _
  rw [h]

/-- The walk accumulator of `GetPreviousDBVersion`: the flag records
whether the given version was seen, the tracked value only grows, ends up
either untouched or at a discovered version below the given one, and
bounds every discovered version below the given one. -/
theorem previousScan_spec (version : Int) :
    ∀ (files : List String) (p : Int) (s : Bool),
      (previousScan version files p s).2 =
        (s || decide (version ∈ discoveredVersions files)) ∧
      p ≤ (previousScan version files p s).1 ∧
      ((previousScan version files p s).1 = p ∨
        ((previousScan version files p s).1 ∈ discoveredVersions files ∧
          (previousScan version files p s).1 < version)) ∧
      (∀ v ∈ discoveredVersions files, v < version →
        v ≤ (previousScan version files p s).1) := by
  intro files
  induction files with
  | nil =>
    intro p s
    refine ⟨by simp [previousScan, discoveredVersions], le_rfl, Or.inl rfl, ?_⟩
    intro v hv
    simp [discoveredVersions] at hv
  | cons name rest ih =>
    intro p s
    cases hnc : NumericComponent name with
    | error e =>
      rw [previousScan_cons_err version name rest p s e hnc,
        discoveredVersions_cons_err name rest e hnc]
      exact ih p s
    | ok v =>
      rw [previousScan_cons_ok version name rest p s v hnc,
        discoveredVersions_cons_ok name rest v hnc]
      obtain ⟨ihs, ihle, ihcase, ihmax⟩ :=
        ih (if p < v ∧ v < version then v else p) (s || (v == version))
      refine ⟨?_, ?_, ?_, ?_⟩
      · rw [ihs]
        by_cases hveq : v = version
        · simp [List.mem_cons, hveq]
        · have hb : (v == version) = false := by
            simp [hveq]
          simp [List.mem_cons, hb, Ne.symm hveq]
      · refine le_trans ?_ ihle
        split_ifs with h
        · exact le_of_lt h.1
        · exact le_rfl
      · rcases ihcase with heq | ⟨hmem, hlt⟩
        · by_cases hif : p < v ∧ v < version
          · have hval : (if p < v ∧ v < version then v else p) = v := if_pos hif
            refine Or.inr ⟨?_, ?_⟩
            · rw [heq.trans hval]
              exact List.mem_cons_self v _
            · rw [heq.trans hval]
              exact hif.2
          · exact Or.inl (heq.trans (if_neg hif))
        · exact Or.inr ⟨List.mem_cons_of_mem _ hmem, hlt⟩
      · intro w hw hwlt
        rcases List.mem_cons.1 hw with h1 | h2
        · subst h1
          refine le_trans ?_ ihle
          by_cases hpw : p < w
          · rw [if_pos ⟨hpw, hwlt⟩]
          · rw [if_neg (fun hc : p < w ∧ w < version => hpw hc.1)]
            exact le_of_not_lt hpw
        · exact ihmax w h2 hwlt

/-- `NumericComponent` only accepts strictly positive versions. -/
theorem NumericComponent_pos (name : String) (v : Int)
    (h : NumericComponent name = .ok v) : 0 < v := by
  simp only [NumericComponent] at h
  split at h
  · cases h
  · split at h
    · cases h
    · split at h
      · cases h
      · split at h
        · cases h
        · injection h with hv
          rename_i hn
          omega

/-- Every discovered version is strictly positive. -/
theorem discoveredVersions_pos (files : List String) (v : Int)
    (h : v ∈ discoveredVersions files) : 0 < v := by
  unfold discoveredVersions at h
  obtain ⟨name, _, hv⟩ := List.mem_filterMap.1 h
  cases hnc : NumericComponent name with
  | error e =>
    rw [hnc] at hv
    simp [Except.toOption] at hv
  | ok w =>
    rw [hnc] at hv
    have hwv : w = v := by simpa [Except.toOption] using hv
    exact hwv ▸ NumericComponent_pos name w hnc

/-- C9 counterexample: the directory holds only `5_x.sql` (version 5);
no discovered version is strictly earlier than 5, yet
`GetPreviousDBVersion` returns 0 instead of failing with
`NoPreviousVersion` as the claim's "exactly when" demands. -/
theorem C9_counterexample_seen_version_returns_zero :
    discoveredVersions ["5_x.sql"] = [5] ∧
    GetPreviousDBVersion ["5_x.sql"] 5 = .ok 0 :=
  ⟨rfl, rfl⟩

/-- C9 (amended): `GetPreviousDBVersion` fails with `NoPreviousVersion`
exactly when no discovered version is strictly earlier than the given one
AND the given version itself is not discovered; when an earlier version
exists it returns the largest such version; when only the given version is
discovered it returns 0; failures are error values, not process exits. -/
theorem C9_amended_previous_version (files : List String) (version : Int) :
    (GetPreviousDBVersion files version = .error "no previous version found" ↔
      (∀ v ∈ discoveredVersions files, ¬ v < version) ∧
        version ∉ discoveredVersions files) ∧
    ((∃ v ∈ discoveredVersions files, v < version) →
      ∃ w, GetPreviousDBVersion files version = .ok w ∧
        w ∈ discoveredVersions files ∧ w < version ∧
        ∀ v ∈ discoveredVersions files, v < version → v ≤ w) ∧
    ((∀ v ∈ discoveredVersions files, ¬ v < version) →
      version ∈ discoveredVersions files →
      GetPreviousDBVersion files version = .ok 0) := by
  obtain ⟨hs, hle, hcase, hmax⟩ := previousScan_spec version files (-1) false
  have hgpv : GetPreviousDBVersion files version =
      if (previousScan version files (-1) false).1 = -1 then
        (if (previousScan version files (-1) false).2 then .ok 0
          else .error "no previous version found")
      else .ok (previousScan version files (-1) false).1 := rfl
  rw [Bool.false_or] at hs
  have hnoear : (previousScan version files (-1) false).1 = -1 ↔
      (∀ v ∈ discoveredVersions files, ¬ v < version) := by
    constructor
    · intro h1 v hv hvlt
      have h2 := hmax v hv hvlt
      have h3 := discoveredVersions_pos files v hv
      omega
    · intro hall
      rcases hcase with h | ⟨hmem, hlt⟩
      · exact h
      · exact absurd hlt (hall _ hmem)
  have hsaw : (previousScan version files (-1) false).2 = true ↔
      version ∈ discoveredVersions files := by
    rw [hs]
    simp
  refine ⟨?_, ?_, ?_⟩
  · constructor
    · intro herr
      rw [hgpv] at herr
      by_cases h1 : (previousScan version files (-1) false).1 = -1
      · rw [if_pos h1] at herr
        by_cases h2 : (previousScan version files (-1) false).2
        · rw [if_pos h2] at herr
          cases herr
        · refine ⟨hnoear.1 h1, ?_⟩
          intro hcmem
          exact h2 (hsaw.2 hcmem)
      · rw [if_neg h1] at herr
        cases herr
    · rintro ⟨hall, hnm⟩
      rw [hgpv, if_pos (hnoear.2 hall), if_neg ?_]
      intro h2
      exact hnm (hsaw.1 h2)
  · rintro ⟨v, hv, hvlt⟩
    have h1 : (previousScan version files (-1) false).1 ≠ -1 := by
      intro hc
      exact (hnoear.1 hc) v hv hvlt
    refine ⟨(previousScan version files (-1) false).1, ?_, ?_, ?_, ?_⟩
    · rw [hgpv, if_neg h1]
    · rcases hcase with h | ⟨hmem, _⟩
      · exact absurd h h1
      · exact hmem
    · rcases hcase with h | ⟨_, hlt⟩
      · exact absurd h h1
      · exact hlt
    · intro w hw hwlt
      exact hmax w hw hwlt
  · intro hall hmem
    rw [hgpv, if_pos (hnoear.2 hall), if_pos (hsaw.2 hmem)]

/-- C9 witness for the amended statement: with versions {2, 3, 7} and
given version 5, the largest earlier version 3 is returned. -/
theorem C9_amended_previous_version_witness :
    ∃ w, GetPreviousDBVersion ["2_a.sql", "7_c.sql", "3_b.sql"] 5 = .ok w ∧
      w ∈ discoveredVersions ["2_a.sql", "7_c.sql", "3_b.sql"] ∧ w < 5 ∧
      ∀ v ∈ discoveredVersions ["2_a.sql", "7_c.sql", "3_b.sql"], v < 5 → v ≤ w :=
  (C9_amended_previous_version ["2_a.sql", "7_c.sql", "3_b.sql"] 5).2.1
    ⟨2, by rw [show discoveredVersions ["2_a.sql", "7_c.sql", "3_b.sql"] = [2, 7, 3] from rfl]
           exact List.mem_cons_self 2 _, by decide⟩

end Goose
